import Mathlib

/-
Verification of the loss-function core of the larnd_infill repository
(src/ME/losses.py) against its natural-language specification.

The shallow embedding below translates the coordinate selection, range
grouping, subset loss evaluation and strategy-construction logic of
losses.py into executable Lean definitions:

* sparse tensors (MinkowskiEngine SparseTensor) become association lists
  from integer coordinate rows to a feature value; the coordinate-indexed
  lookup `features_at_coordinates` returns 0 for an absent coordinate,
  matching the collaborator's contract;
* torch float tensors become rationals (the claims under verification are
  structural: key-sets, partitions, grouping, division-by-zero guards,
  batch averaging — none depends on floating-point rounding);
* the elementwise criteria (nn.L1Loss, nn.MSELoss, ...) are carried as an
  abstract pointwise function `f` together with torch's two reductions:
  mean reduction over an empty tensor is undefined (NaN) and is modelled
  as `Option.none`; sum reduction over an empty tensor is 0;
* a Python expression that raises (or produces NaN through a division by
  zero) is modelled as `Option.none` / `Except.error`.
-/

/-- A sparse-tensor coordinate row: (batch index, x, y, z), as in
MinkowskiEngine `s.C` for 3-d data.  The source casts these integer rows
to float before lookups; the values stay integral, so they are kept in ℤ. -/
structure Coord where
  b : ℤ
  x : ℤ
  y : ℤ
  z : ℤ
deriving DecidableEq, Repr

/-- Column `idx` of a coordinate row, as in `coords[:, idx]`.
The source uses `coord_idx = 1` for the x axis and `3` for the z axis. -/
def axisVal (c : Coord) (idx : ℕ) : ℤ :=
  match idx with
  | 0 => c.b
  | 1 => c.x
  | 2 => c.y
  | _ => c.z

/-- A sparse tensor with one feature channel per coordinate row
(the channels the loss code reads: channel 0 of prediction/target,
or the trailing infill-mask channel of the network input).
Row order matters, duplicate coordinates are excluded by the data-model
invariant where a claim needs it. -/
abbrev SparseT (α : Type) : Type := List (Coord × α)

/-- `features_at_coordinates` for a single queried coordinate: the feature
stored at the first row with that coordinate, and 0 if the coordinate is
absent (the sparse-tensor collaborator's lookup contract). -/
def featAt {α : Type} [Zero α] (s : SparseT α) (c : Coord) : α :=
  match s.find? (fun r => decide (r.1 = c)) with
  | some r => r.2
  | none => 0

/-- `features_at_coordinates(coords)` followed by `.squeeze()` on an
(n, 1) feature tensor: one value per queried coordinate. -/
def valuesAt {α : Type} [Zero α] (s : SparseT α) (cs : List Coord) : List α :=
  cs.map (featAt s)

/-- Sum-reduced elementwise criterion (torch `reduction="sum"`): the
pointwise loss `f` summed over the paired values; 0 on empty input. -/
def sumCrit {α : Type} [AddCommMonoid α] (f : α → α → α) (p t : List α) : α :=
  (List.zipWith f p t).sum

/-- Mean-reduced elementwise criterion (torch default reduction): the
pointwise loss averaged over the elements.  torch's mean over zero
elements is NaN; that undefined value is modelled as `none`. -/
def meanCrit {α : Type} [DivisionRing α] (f : α → α → α) (p t : List α) : Option α :=
  if p.length = 0 then none else some (sumCrit f p t / (p.length : α))

/-- PixelWise._get_loss_at_coords: mean-reduced criterion on the feature
values at `cs` when `cs` is non-empty, sum-reduced criterion (on two
zero-length value sequences) when it is empty. -/
def getLossAtCoords {α : Type} [DivisionRing α] (f : α → α → α)
    (sp st : SparseT α) (cs : List Coord) : Option α :=
  if cs.length ≠ 0 then meanCrit f (valuesAt sp cs) (valuesAt st cs)
  else some (sumCrit f (valuesAt sp cs) (valuesAt st cs))

/-- PixelWise._get_summed_loss_at_coords: when `cs` is non-empty, the
mean-reduced criterion applied to the two mean intensities
(sum of values / number of coordinates, two scalar tensors); when `cs`
is empty, the sum-reduced criterion applied to the two (zero) sums. -/
def getSummedLossAtCoords {α : Type} [DivisionRing α] (f : α → α → α)
    (sp st : SparseT α) (cs : List Coord) : Option α :=
  if cs.length ≠ 0 then
    meanCrit f [(valuesAt sp cs).sum / (cs.length : α)]
      [(valuesAt st cs).sum / (cs.length : α)]
  else some (sumCrit f [(valuesAt sp cs).sum] [(valuesAt st cs).sum])

/-- The value `_get_loss_at_coords` computes (it is always defined, since
the source only applies the mean reduction to a non-empty subset). -/
def lossValAtCoords {α : Type} [DivisionRing α] (f : α → α → α)
    (sp st : SparseT α) (cs : List Coord) : α :=
  if cs.length ≠ 0 then
    sumCrit f (valuesAt sp cs) (valuesAt st cs) / (cs.length : α)
  else sumCrit f (valuesAt sp cs) (valuesAt st cs)

/-- The value `_get_summed_loss_at_coords` computes. -/
def summedLossValAtCoords {α : Type} [DivisionRing α] (f : α → α → α)
    (sp st : SparseT α) (cs : List Coord) : α :=
  if cs.length ≠ 0 then
    f ((valuesAt sp cs).sum / (cs.length : α)) ((valuesAt st cs).sum / (cs.length : α))
  else sumCrit f [(valuesAt sp cs).sum] [(valuesAt st cs).sum]

theorem valuesAt_length {α : Type} [Zero α] (s : SparseT α) (cs : List Coord) :
    (valuesAt s cs).length = cs.length := by
  simp [valuesAt]

theorem getLossAtCoords_eq {α : Type} [DivisionRing α] (f : α → α → α)
    (sp st : SparseT α) (cs : List Coord) :
    getLossAtCoords f sp st cs = some (lossValAtCoords f sp st cs) := by
  by_cases h : cs.length = 0
  · simp [getLossAtCoords, lossValAtCoords, h]
  · simp [getLossAtCoords, lossValAtCoords, h, meanCrit, valuesAt_length]

theorem getSummedLossAtCoords_eq {α : Type} [DivisionRing α] (f : α → α → α)
    (sp st : SparseT α) (cs : List Coord) :
    getSummedLossAtCoords f sp st cs = some (summedLossValAtCoords f sp st cs) := by
  by_cases h : cs.length = 0
  · simp [getSummedLossAtCoords, summedLossValAtCoords, h]
  · simp [getSummedLossAtCoords, summedLossValAtCoords, h, meanCrit, sumCrit]

/-- The six coordinate subsets produced by PixelWise._get_infill_active_coords. -/
structure PWCoords where
  infill : List Coord
  active : List Coord
  infill_zero : List Coord
  infill_nonzero : List Coord
  active_zero : List Coord
  active_nonzero : List Coord

/-- PixelWise._get_infill_active_coords.  `sin` is the network input tensor
restricted to its trailing feature channel (the infill-mask flag,
`s_in.F[:, -1]`); `star` is the target tensor restricted to its first
feature channel.  Rows whose trailing channel equals 1 form the infill
set, the remaining rows the active set; each is split by whether the
target's first channel at that coordinate (0 if absent) is zero. -/
def getInfillActiveCoords (sin : SparseT ℚ) (star : SparseT ℚ) : PWCoords :=
  let infill := (sin.filter (fun r => decide (r.2 = 1))).map Prod.fst
  let active := (sin.filter (fun r => !(decide (r.2 = 1)))).map Prod.fst
  { infill := infill
    active := active
    infill_zero := infill.filter (fun c => decide (featAt star c = 0))
    infill_nonzero := infill.filter (fun c => !(decide (featAt star c = 0)))
    active_zero := active.filter (fun c => decide (featAt star c = 0))
    active_nonzero := active.filter (fun c => !(decide (featAt star c = 0))) }

/-- Sequencing of a list of possibly-undefined values: defined exactly
when every element is (a raised exception propagates). -/
def optSequence {α : Type} : List (Option α) → Option (List α)
  | [] => some []
  | x :: xs => x.bind (fun v => (optSequence xs).map (fun vs => v :: vs))

theorem optSequence_map_some {α β : Type} (g : β → α) (l : List β) :
    optSequence (l.map (fun b => some (g b))) = some (l.map g) := by
  induction l with
  | nil => rfl
  | cons b t ih => simp [optSequence, ih]

/-- The per-sample restriction `coords[coords[:, 0] == i_batch]`. -/
def batchRestrict (cs : List Coord) (i : ℕ) : List Coord :=
  cs.filter (fun c => decide (c.b = (i : ℤ)))

/-- The list of per-sample elementwise losses a PixelWise sub-term
accumulates over the batch loop (`for i_batch in range(batch_size)`). -/
def batchLosses (f : ℚ → ℚ → ℚ) (sp st : SparseT ℚ) (cs : List Coord)
    (bs : ℕ) : Option (List ℚ) :=
  optSequence ((List.range bs).map (fun i => getLossAtCoords f sp st (batchRestrict cs i)))

/-- The list of per-sample aggregate (summed) losses for the infill_sum
sub-term. -/
def batchSummedLosses (f : ℚ → ℚ → ℚ) (sp st : SparseT ℚ) (cs : List Coord)
    (bs : ℕ) : Option (List ℚ) :=
  optSequence ((List.range bs).map (fun i => getSummedLossAtCoords f sp st (batchRestrict cs i)))

/-- The values of `batchLosses` (always defined). -/
def batchLossVals (f : ℚ → ℚ → ℚ) (sp st : SparseT ℚ) (cs : List Coord)
    (bs : ℕ) : List ℚ :=
  (List.range bs).map (fun i => lossValAtCoords f sp st (batchRestrict cs i))

/-- The values of `batchSummedLosses` (always defined). -/
def batchSummedLossVals (f : ℚ → ℚ → ℚ) (sp st : SparseT ℚ) (cs : List Coord)
    (bs : ℕ) : List ℚ :=
  (List.range bs).map (fun i => summedLossValAtCoords f sp st (batchRestrict cs i))

theorem batchLosses_eq (f : ℚ → ℚ → ℚ) (sp st : SparseT ℚ) (cs : List Coord)
    (bs : ℕ) : batchLosses f sp st cs bs = some (batchLossVals f sp st cs bs) := by
  unfold batchLosses batchLossVals
  rw [show (List.range bs).map (fun i => getLossAtCoords f sp st (batchRestrict cs i)) =
      (List.range bs).map (fun i => some (lossValAtCoords f sp st (batchRestrict cs i))) from
    List.map_congr_left (fun i _ => getLossAtCoords_eq f sp st (batchRestrict cs i))]
  exact optSequence_map_some _ _

theorem batchSummedLosses_eq (f : ℚ → ℚ → ℚ) (sp st : SparseT ℚ) (cs : List Coord)
    (bs : ℕ) : batchSummedLosses f sp st cs bs = some (batchSummedLossVals f sp st cs bs) := by
  unfold batchSummedLosses batchSummedLossVals
  rw [show (List.range bs).map (fun i => getSummedLossAtCoords f sp st (batchRestrict cs i)) =
      (List.range bs).map (fun i => some (summedLossValAtCoords f sp st (batchRestrict cs i))) from
    List.map_congr_left (fun i _ => getSummedLossAtCoords_eq f sp st (batchRestrict cs i))]
  exact optSequence_map_some _ _

/-- The seven PixelWise scale factors (`lambda_loss_*`, resolved from the
configuration with a default of 0.0 for an absent field). -/
structure PWWeights where
  infill_zero : ℚ
  infill_nonzero : ℚ
  active_zero : ℚ
  active_nonzero : ℚ
  infill : ℚ
  active : ℚ
  infill_sum : ℚ
deriving DecidableEq, Repr

/-- One accumulation block of PixelWise.calc_loss's second stage: for a
sub-term (name, scale factor, per-sample loss list), if the scale factor
is non-zero then `loss = sum(losses)/batch_size`, `loss_tot += scale*loss`
and `losses[name] = loss`; a zero scale factor leaves the accumulator
unchanged.  `sum([])/0` would raise in Python, hence `none` when the
batch is empty and the sub-term enabled. -/
def pwStep (bs : ℕ) (acc : ℚ × List (String × ℚ)) (e : String × ℚ × List ℚ) :
    Option (ℚ × List (String × ℚ)) :=
  if e.2.1 ≠ 0 then
    if bs = 0 then none
    else
      some (acc.1 + e.2.1 * (e.2.2.sum / (bs : ℚ)), acc.2 ++ [(e.1, e.2.2.sum / (bs : ℚ))])
  else some acc

/-- PixelWise.calc_loss.  Stage one mirrors the batch loop: the per-sample
loss list of a sub-term is computed only when its scale factor is
non-zero (the `if self.lambda_...:` guards).  Stage two folds the seven
accumulation blocks of the source in order over `(loss_tot, losses)`,
starting from `(0.0, {})`.  The breakdown dict is modelled as an
insertion-ordered association list. -/
def pixelCalcLoss (f : ℚ → ℚ → ℚ) (w : PWWeights) (sp : SparseT ℚ)
    (sin : SparseT ℚ) (star : SparseT ℚ) (bs : ℕ) :
    Option (ℚ × List (String × ℚ)) :=
  let P := getInfillActiveCoords sin star
  (if w.infill_zero ≠ 0 then batchLosses f sp star P.infill_zero bs else some []).bind fun lIZ =>
  (if w.infill_nonzero ≠ 0 then batchLosses f sp star P.infill_nonzero bs else some []).bind fun lINZ =>
  (if w.infill ≠ 0 then batchLosses f sp star P.infill bs else some []).bind fun lI =>
  (if w.infill_sum ≠ 0 then batchSummedLosses f sp star P.infill bs else some []).bind fun lIS =>
  (if w.active_zero ≠ 0 then batchLosses f sp star P.active_zero bs else some []).bind fun lAZ =>
  (if w.active_nonzero ≠ 0 then batchLosses f sp star P.active_nonzero bs else some []).bind fun lANZ =>
  (if w.active ≠ 0 then batchLosses f sp star P.active bs else some []).bind fun lA =>
  List.foldlM (pwStep bs) ((0 : ℚ), ([] : List (String × ℚ)))
    [("infill_zero", w.infill_zero, lIZ), ("infill_nonzero", w.infill_nonzero, lINZ),
     ("infill", w.infill, lI), ("infill_sum", w.infill_sum, lIS),
     ("active_zero", w.active_zero, lAZ), ("active_nonzero", w.active_nonzero, lANZ),
     ("active", w.active, lA)]

/-- The seven PixelWise sub-terms in the accumulation order of the source:
name, scale factor, and the per-sample loss list over the batch. -/
def pwEntriesRaw (f : ℚ → ℚ → ℚ) (w : PWWeights) (sp : SparseT ℚ)
    (sin : SparseT ℚ) (star : SparseT ℚ) (bs : ℕ) : List (String × ℚ × List ℚ) :=
  let P := getInfillActiveCoords sin star
  [("infill_zero", w.infill_zero, batchLossVals f sp star P.infill_zero bs),
   ("infill_nonzero", w.infill_nonzero, batchLossVals f sp star P.infill_nonzero bs),
   ("infill", w.infill, batchLossVals f sp star P.infill bs),
   ("infill_sum", w.infill_sum, batchSummedLossVals f sp star P.infill bs),
   ("active_zero", w.active_zero, batchLossVals f sp star P.active_zero bs),
   ("active_nonzero", w.active_nonzero, batchLossVals f sp star P.active_nonzero bs),
   ("active", w.active, batchLossVals f sp star P.active bs)]

/-- The seven PixelWise sub-terms with their batch-averaged values:
per-sample loss summed over the batch, divided by the batch size. -/
def pwEntries (f : ℚ → ℚ → ℚ) (w : PWWeights) (sp : SparseT ℚ)
    (sin : SparseT ℚ) (star : SparseT ℚ) (bs : ℕ) : List (String × ℚ × ℚ) :=
  (pwEntriesRaw f w sp sin star bs).map (fun e => (e.1, e.2.1, e.2.2.sum / (bs : ℚ)))

/-- The scale factor a PixelWise sub-term name carries. -/
def pwWeightOf (w : PWWeights) : String → ℚ
  | "infill_zero" => w.infill_zero
  | "infill_nonzero" => w.infill_nonzero
  | "infill" => w.infill
  | "infill_sum" => w.infill_sum
  | "active_zero" => w.active_zero
  | "active_nonzero" => w.active_nonzero
  | "active" => w.active
  | _ => 0

/-- The total value of one accumulation block (defined whenever the batch
is non-empty). -/
def pwStepT (bs : ℕ) (acc : ℚ × List (String × ℚ)) (e : String × ℚ × List ℚ) :
    ℚ × List (String × ℚ) :=
  if e.2.1 ≠ 0 then
    (acc.1 + e.2.1 * (e.2.2.sum / (bs : ℚ)), acc.2 ++ [(e.1, e.2.2.sum / (bs : ℚ))])
  else acc

/-- The breakdown mapping produced by folding the accumulation blocks over
a list of sub-terms: one `(name, batch-averaged value)` entry per sub-term
with a non-zero scale factor, in order. -/
def pwBreakdown (bs : ℕ) (entries : List (String × ℚ × List ℚ)) : List (String × ℚ) :=
  entries.filterMap (fun e => if e.2.1 = 0 then none else some (e.1, e.2.2.sum / (bs : ℚ)))

theorem pwStep_eq_some (bs : ℕ) (hbs : bs ≠ 0) (acc : ℚ × List (String × ℚ))
    (e : String × ℚ × List ℚ) : pwStep bs acc e = some (pwStepT bs acc e) := by
  by_cases h : e.2.1 = 0 <;> simp [pwStep, pwStepT, hbs, h]

theorem foldlM_pwStep_eq (bs : ℕ) (hbs : bs ≠ 0) :
    ∀ (entries : List (String × ℚ × List ℚ)) (acc : ℚ × List (String × ℚ)),
    List.foldlM (pwStep bs) acc entries = some (entries.foldl (pwStepT bs) acc) := by
  intro entries
  induction entries with
  | nil => intro acc; rfl
  | cons e t ih =>
    intro acc
    rw [List.foldlM_cons, pwStep_eq_some bs hbs acc e]
    simpa using ih (pwStepT bs acc e)

theorem foldl_pwStepT_snd (bs : ℕ) :
    ∀ (entries : List (String × ℚ × List ℚ)) (acc : ℚ × List (String × ℚ)),
    (entries.foldl (pwStepT bs) acc).2 = acc.2 ++ pwBreakdown bs entries := by
  intro entries
  induction entries with
  | nil => intro acc; simp [pwBreakdown]
  | cons e t ih =>
    intro acc
    by_cases h : e.2.1 = 0
    · simp [List.foldl_cons, pwStepT, pwBreakdown, h, ih]
    · simp [List.foldl_cons, pwStepT, pwBreakdown, h, ih]

theorem foldl_pwStepT_fst (bs : ℕ) :
    ∀ (entries : List (String × ℚ × List ℚ)) (acc : ℚ × List (String × ℚ)),
    (entries.foldl (pwStepT bs) acc).1 =
      acc.1 + (entries.map
        (fun e => if e.2.1 = 0 then 0 else e.2.1 * (e.2.2.sum / (bs : ℚ)))).sum := by
  intro entries
  induction entries with
  | nil => intro acc; simp
  | cons e t ih =>
    intro acc
    by_cases h : e.2.1 = 0
    · simp [List.foldl_cons, pwStepT, h, ih]
    · simp [List.foldl_cons, pwStepT, h, ih]
      ring

theorem pwBreakdown_weighted_sum (bs : ℕ) (W : String → ℚ) :
    ∀ (entries : List (String × ℚ × List ℚ)),
    (∀ e ∈ entries, W e.1 = e.2.1) →
    (entries.map (fun e => if e.2.1 = 0 then 0 else e.2.1 * (e.2.2.sum / (bs : ℚ)))).sum =
      ((pwBreakdown bs entries).map (fun kv => W kv.1 * kv.2)).sum := by
  intro entries
  induction entries with
  | nil => intro _; simp [pwBreakdown]
  | cons e t ih =>
    intro hW
    have hWe : W e.1 = e.2.1 := hW e (List.mem_cons_self e t)
    have hWt : ∀ e' ∈ t, W e'.1 = e'.2.1 := fun e' h' => hW e' (List.mem_cons_of_mem e h')
    by_cases h : e.2.1 = 0
    · simp [pwBreakdown, h, ih hWt]
    · simp [pwBreakdown, h, ih hWt, hWe]

theorem pwBreakdown_congr (bs : ℕ) :
    ∀ (l l' : List (String × ℚ × List ℚ)),
    List.Forall₂ (fun e e' => e.1 = e'.1 ∧ e.2.1 = e'.2.1 ∧ (e.2.1 ≠ 0 → e.2.2 = e'.2.2)) l l' →
    pwBreakdown bs l = pwBreakdown bs l' := by
  intro l l' h
  induction h with
  | nil => rfl
  | @cons a b l1 l2 hr _ ih =>
    rcases hr with ⟨hn, hl, hv⟩
    simp only [pwBreakdown] at ih ⊢
    by_cases h0 : a.2.1 = 0
    · have h0' : b.2.1 = 0 := by rw [← hl]; exact h0
      rw [List.filterMap_cons, List.filterMap_cons, if_pos h0, if_pos h0']
      exact ih
    · have h0' : ¬ b.2.1 = 0 := by rw [← hl]; exact h0
      rw [List.filterMap_cons, List.filterMap_cons, if_neg h0, if_neg h0',
        hn, hv h0, ih]

theorem mem_pwKeys_iff {β γ : Type} (te : String × ℚ × β → γ) :
    ∀ (l : List (String × ℚ × β)) (name : String),
    name ∈ (l.filterMap (fun e => if e.2.1 = 0 then none else some (e.1, te e))).map Prod.fst ↔
      ∃ lam v, (name, lam, v) ∈ l ∧ lam ≠ 0 := by
  intro l
  induction l with
  | nil => intro name; simp
  | cons e t ih =>
    obtain ⟨n, lam0, v0⟩ := e
    intro name
    rw [List.filterMap_cons]
    by_cases h : lam0 = 0
    · rw [if_pos h, ih name]
      constructor
      · rintro ⟨lam, v, hm, hne⟩
        exact ⟨lam, v, List.mem_cons_of_mem _ hm, hne⟩
      · rintro ⟨lam, v, hm, hne⟩
        rcases List.mem_cons.mp hm with heq | hmem
        · exact absurd ((show lam = lam0 from congrArg (fun p => p.2.1) heq).trans h) hne
        · exact ⟨lam, v, hmem, hne⟩
    · rw [if_neg h, List.map_cons, List.mem_cons, ih name]
      constructor
      · rintro (heq | hmem)
        · refine ⟨lam0, v0, ?_, h⟩
          rw [show name = n from heq]
          exact List.mem_cons_self _ _
        · obtain ⟨lam, v, hm', hne⟩ := hmem
          exact ⟨lam, v, List.mem_cons_of_mem _ hm', hne⟩
      · rintro ⟨lam, v, hm, hne⟩
        rcases List.mem_cons.mp hm with heq | hmem
        · exact Or.inl (show name = n from congrArg (fun p => p.1) heq)
        · exact Or.inr ⟨lam, v, hmem, hne⟩

theorem bind_if_some {α β : Type} (c : Prop) [Decidable c] (m : Option α) (v : α)
    (hm : m = some v) (d : α) (k : α → Option β) :
    ((if c then m else some d).bind k) = k (if c then v else d) := by
  by_cases h : c
  · rw [if_pos h, if_pos h, hm]; rfl
  · rw [if_neg h, if_neg h]; rfl

/-- The seven sub-terms with the per-sample loss lists as the source
actually materializes them: a sub-term whose scale factor is zero never
had its per-sample losses computed (its list stays empty). -/
def pwCondEntries (f : ℚ → ℚ → ℚ) (w : PWWeights) (sp : SparseT ℚ)
    (sin : SparseT ℚ) (star : SparseT ℚ) (bs : ℕ) : List (String × ℚ × List ℚ) :=
  let P := getInfillActiveCoords sin star
  [("infill_zero", w.infill_zero,
      if w.infill_zero ≠ 0 then batchLossVals f sp star P.infill_zero bs else []),
   ("infill_nonzero", w.infill_nonzero,
      if w.infill_nonzero ≠ 0 then batchLossVals f sp star P.infill_nonzero bs else []),
   ("infill", w.infill,
      if w.infill ≠ 0 then batchLossVals f sp star P.infill bs else []),
   ("infill_sum", w.infill_sum,
      if w.infill_sum ≠ 0 then batchSummedLossVals f sp star P.infill bs else []),
   ("active_zero", w.active_zero,
      if w.active_zero ≠ 0 then batchLossVals f sp star P.active_zero bs else []),
   ("active_nonzero", w.active_nonzero,
      if w.active_nonzero ≠ 0 then batchLossVals f sp star P.active_nonzero bs else []),
   ("active", w.active,
      if w.active ≠ 0 then batchLossVals f sp star P.active bs else [])]

theorem pixelCalcLoss_eq_fold (f : ℚ → ℚ → ℚ) (w : PWWeights) (sp : SparseT ℚ)
    (sin : SparseT ℚ) (star : SparseT ℚ) (bs : ℕ) :
    pixelCalcLoss f w sp sin star bs =
      List.foldlM (pwStep bs) ((0 : ℚ), ([] : List (String × ℚ)))
        (pwCondEntries f w sp sin star bs) := by
  simp only [pixelCalcLoss, pwCondEntries]
  rw [bind_if_some _ _ _ (batchLosses_eq _ _ _ _ _),
      bind_if_some _ _ _ (batchLosses_eq _ _ _ _ _),
      bind_if_some _ _ _ (batchLosses_eq _ _ _ _ _),
      bind_if_some _ _ _ (batchSummedLosses_eq _ _ _ _ _),
      bind_if_some _ _ _ (batchLosses_eq _ _ _ _ _),
      bind_if_some _ _ _ (batchLosses_eq _ _ _ _ _),
      bind_if_some _ _ _ (batchLosses_eq _ _ _ _ _)]

theorem pwCondEntries_rel (f : ℚ → ℚ → ℚ) (w : PWWeights) (sp : SparseT ℚ)
    (sin : SparseT ℚ) (star : SparseT ℚ) (bs : ℕ) :
    List.Forall₂ (fun e e' => e.1 = e'.1 ∧ e.2.1 = e'.2.1 ∧ (e.2.1 ≠ 0 → e.2.2 = e'.2.2))
      (pwCondEntries f w sp sin star bs) (pwEntriesRaw f w sp sin star bs) := by
  simp only [pwCondEntries, pwEntriesRaw]
  refine List.Forall₂.cons ⟨rfl, rfl, fun h => if_pos h⟩ ?_
  refine List.Forall₂.cons ⟨rfl, rfl, fun h => if_pos h⟩ ?_
  refine List.Forall₂.cons ⟨rfl, rfl, fun h => if_pos h⟩ ?_
  refine List.Forall₂.cons ⟨rfl, rfl, fun h => if_pos h⟩ ?_
  refine List.Forall₂.cons ⟨rfl, rfl, fun h => if_pos h⟩ ?_
  refine List.Forall₂.cons ⟨rfl, rfl, fun h => if_pos h⟩ ?_
  refine List.Forall₂.cons ⟨rfl, rfl, fun h => if_pos h⟩ ?_
  exact List.Forall₂.nil

theorem pwCondEntries_weights (f : ℚ → ℚ → ℚ) (w : PWWeights) (sp : SparseT ℚ)
    (sin : SparseT ℚ) (star : SparseT ℚ) (bs : ℕ) :
    ∀ e ∈ pwCondEntries f w sp sin star bs, pwWeightOf w e.1 = e.2.1 := by
  intro e he
  simp only [pwCondEntries, List.mem_cons, List.not_mem_nil, or_false] at he
  rcases he with h | h | h | h | h | h | h <;> subst h <;> rfl

theorem pwEntries_filterMap (f : ℚ → ℚ → ℚ) (w : PWWeights) (sp : SparseT ℚ)
    (sin : SparseT ℚ) (star : SparseT ℚ) (bs : ℕ) :
    (pwEntries f w sp sin star bs).filterMap
        (fun e => if e.2.1 = 0 then none else some (e.1, e.2.2)) =
      pwBreakdown bs (pwEntriesRaw f w sp sin star bs) := by
  unfold pwEntries pwBreakdown
  rw [List.filterMap_map]
  rfl

/-- C1: for every PixelWise calc_loss call on a non-empty batch, the
returned breakdown mapping has a key for a sub-term iff that sub-term's
scale factor is non-zero (zero-weight sub-terms are never computed and
never appear); each present value is the per-sample loss summed over the
batch divided by the batch size, stored unscaled; and loss_tot equals the
sum over the present sub-terms of scale factor times breakdown value. -/
theorem pixelwise_breakdown_gating (f : ℚ → ℚ → ℚ) (w : PWWeights)
    (sp sin star : SparseT ℚ) (bs : ℕ) (hbs : bs ≠ 0) :
    ∃ tot bd,
      pixelCalcLoss f w sp sin star bs = some (tot, bd) ∧
      bd = (pwEntries f w sp sin star bs).filterMap
             (fun e => if e.2.1 = 0 then none else some (e.1, e.2.2)) ∧
      (∀ name, name ∈ bd.map Prod.fst ↔
        ∃ lam v, (name, lam, v) ∈ pwEntries f w sp sin star bs ∧ lam ≠ 0) ∧
      tot = (bd.map (fun kv => pwWeightOf w kv.1 * kv.2)).sum := by
  have hfold := pixelCalcLoss_eq_fold f w sp sin star bs
  rw [foldlM_pwStep_eq bs hbs] at hfold
  have hsnd := foldl_pwStepT_snd bs (pwCondEntries f w sp sin star bs) ((0 : ℚ), [])
  have hfst := foldl_pwStepT_fst bs (pwCondEntries f w sp sin star bs) ((0 : ℚ), [])
  have hbdE : pwBreakdown bs (pwCondEntries f w sp sin star bs) =
      pwBreakdown bs (pwEntriesRaw f w sp sin star bs) :=
    pwBreakdown_congr bs _ _ (pwCondEntries_rel f w sp sin star bs)
  refine ⟨((pwCondEntries f w sp sin star bs).foldl (pwStepT bs) ((0 : ℚ), [])).1,
          ((pwCondEntries f w sp sin star bs).foldl (pwStepT bs) ((0 : ℚ), [])).2,
          by rw [hfold], ?_, ?_, ?_⟩
  · rw [hsnd, List.nil_append, hbdE]
    exact (pwEntries_filterMap f w sp sin star bs).symm
  · intro name
    rw [hsnd, List.nil_append, hbdE, ← pwEntries_filterMap f w sp sin star bs]
    exact mem_pwKeys_iff (fun e => e.2.2) (pwEntries f w sp sin star bs) name
  · rw [hfst, hsnd, List.nil_append, zero_add]
    exact pwBreakdown_weighted_sum bs (pwWeightOf w) _ (pwCondEntries_weights f w sp sin star bs)

/-- Pointwise per-element loss of nn.L1Loss (used to instantiate the
abstract criterion at concrete inputs). -/
def l1Pt : ℚ → ℚ → ℚ := fun p t => |p - t|

/-- A concrete network-input tensor (trailing channel = infill mask):
three infill-marked coordinates and two active ones, batch index 0. -/
def pwWitIn : SparseT ℚ :=
  [(⟨0, 1, 0, 0⟩, 1), (⟨0, 2, 0, 0⟩, 1), (⟨0, 3, 0, 0⟩, 1),
   (⟨0, 4, 0, 0⟩, 0), (⟨0, 5, 0, 0⟩, 0)]

/-- A concrete target tensor: non-zero first channel at two active
coordinates and one infill coordinate; the other two infill coordinates
are absent (value 0). -/
def pwWitTar : SparseT ℚ :=
  [(⟨0, 3, 0, 0⟩, 1), (⟨0, 4, 0, 0⟩, 1), (⟨0, 5, 0, 0⟩, 1)]

/-- Witness for C1: the spec's end-to-end scenario (batch size 1, weights
infill_zero = 1.0 and infill_nonzero = 2.0, all else 0). -/
theorem pixelwise_breakdown_gating_witness :
    (1 : ℕ) ≠ 0 ∧
    ∃ tot bd,
      pixelCalcLoss l1Pt ⟨1, 2, 0, 0, 0, 0, 0⟩ [] pwWitIn pwWitTar 1 = some (tot, bd) ∧
      bd = (pwEntries l1Pt ⟨1, 2, 0, 0, 0, 0, 0⟩ [] pwWitIn pwWitTar 1).filterMap
             (fun e => if e.2.1 = 0 then none else some (e.1, e.2.2)) ∧
      (∀ name, name ∈ bd.map Prod.fst ↔
        ∃ lam v, (name, lam, v) ∈ pwEntries l1Pt ⟨1, 2, 0, 0, 0, 0, 0⟩ [] pwWitIn pwWitTar 1 ∧
          lam ≠ 0) ∧
      tot = (bd.map (fun kv => pwWeightOf ⟨1, 2, 0, 0, 0, 0, 0⟩ kv.1 * kv.2)).sum :=
  ⟨by decide, pixelwise_breakdown_gating l1Pt ⟨1, 2, 0, 0, 0, 0, 0⟩ [] pwWitIn pwWitTar 1 (by decide)⟩

theorem nodup_fst_unique {α : Type} : ∀ (l : List (Coord × α)),
    (l.map Prod.fst).Nodup → ∀ r ∈ l, ∀ r' ∈ l, r.1 = r'.1 → r = r' := by
  intro l
  induction l with
  | nil => intro _ r hr; cases hr
  | cons e t ih =>
    intro h r hr r' hr' hfst
    rw [List.map_cons, List.nodup_cons] at h
    rcases List.mem_cons.mp hr with h1 | h1 <;> rcases List.mem_cons.mp hr' with h2 | h2
    · rw [h1, h2]
    · exfalso
      apply h.1
      rw [h1] at hfst
      rw [hfst]
      exact List.mem_map_of_mem Prod.fst h2
    · exfalso
      apply h.1
      rw [h2] at hfst
      rw [← hfst]
      exact List.mem_map_of_mem Prod.fst h1
    · exact ih h.2 r h1 r' h2 hfst

theorem mem_filter_map_fst {α : Type} (p : Coord × α → Bool) (l : List (Coord × α)) (c : Coord) :
    c ∈ (l.filter p).map Prod.fst ↔ ∃ r, r ∈ l ∧ p r = true ∧ r.1 = c := by
  simp only [List.mem_map, List.mem_filter]
  constructor
  · rintro ⟨r, ⟨hr, hp⟩, hc⟩
    exact ⟨r, hr, hp, hc⟩
  · rintro ⟨r, hr, hp, hc⟩
    exact ⟨r, ⟨hr, hp⟩, hc⟩


theorem mem_giac_infill (sin star : SparseT ℚ) (c : Coord) :
    c ∈ (getInfillActiveCoords sin star).infill ↔ ∃ r, r ∈ sin ∧ r.2 = 1 ∧ r.1 = c := by
  show c ∈ (sin.filter (fun r => decide (r.2 = 1))).map Prod.fst ↔ _
  rw [mem_filter_map_fst]
  simp only [decide_eq_true_eq]

theorem mem_giac_active (sin star : SparseT ℚ) (c : Coord) :
    c ∈ (getInfillActiveCoords sin star).active ↔ ∃ r, r ∈ sin ∧ ¬ r.2 = 1 ∧ r.1 = c := by
  show c ∈ (sin.filter (fun r => !(decide (r.2 = 1)))).map Prod.fst ↔ _
  rw [mem_filter_map_fst]
  simp only [Bool.not_eq_true', decide_eq_false_iff_not]

theorem mem_giac_infill_zero (sin star : SparseT ℚ) (c : Coord) :
    c ∈ (getInfillActiveCoords sin star).infill_zero ↔
      c ∈ (getInfillActiveCoords sin star).infill ∧ featAt star c = 0 := by
  show c ∈ (getInfillActiveCoords sin star).infill.filter
      (fun c => decide (featAt star c = 0)) ↔ _
  rw [List.mem_filter]
  simp only [decide_eq_true_eq]

theorem mem_giac_infill_nonzero (sin star : SparseT ℚ) (c : Coord) :
    c ∈ (getInfillActiveCoords sin star).infill_nonzero ↔
      c ∈ (getInfillActiveCoords sin star).infill ∧ ¬ featAt star c = 0 := by
  show c ∈ (getInfillActiveCoords sin star).infill.filter
      (fun c => !(decide (featAt star c = 0))) ↔ _
  rw [List.mem_filter]
  simp only [Bool.not_eq_true', decide_eq_false_iff_not]

theorem mem_giac_active_zero (sin star : SparseT ℚ) (c : Coord) :
    c ∈ (getInfillActiveCoords sin star).active_zero ↔
      c ∈ (getInfillActiveCoords sin star).active ∧ featAt star c = 0 := by
  show c ∈ (getInfillActiveCoords sin star).active.filter
      (fun c => decide (featAt star c = 0)) ↔ _
  rw [List.mem_filter]
  simp only [decide_eq_true_eq]

theorem mem_giac_active_nonzero (sin star : SparseT ℚ) (c : Coord) :
    c ∈ (getInfillActiveCoords sin star).active_nonzero ↔
      c ∈ (getInfillActiveCoords sin star).active ∧ ¬ featAt star c = 0 := by
  show c ∈ (getInfillActiveCoords sin star).active.filter
      (fun c => !(decide (featAt star c = 0))) ↔ _
  rw [List.mem_filter]
  simp only [Bool.not_eq_true', decide_eq_false_iff_not]

/-- C2: for every input/target pair with a binary trailing input channel
(and no duplicate coordinate rows), the coordinate selection is a
disjoint exhaustive six-way partition: every input coordinate lands in
exactly one of infill-zero / infill-nonzero / active-zero /
active-nonzero (infill when the trailing channel is 1, active when it is
0; zero vs non-zero by the target's first channel at that coordinate,
absent coordinates reading as 0); infill is the union of its two
sub-partitions and active likewise. -/
theorem coordinate_selection_partition (sin star : SparseT ℚ)
    (hnodup : (sin.map Prod.fst).Nodup)
    (hbin : ∀ r ∈ sin, r.2 = 0 ∨ r.2 = 1) :
    ∀ P, P = getInfillActiveCoords sin star →
      (∀ c ∈ sin.map Prod.fst,
        (c ∈ P.infill_zero ∧ c ∉ P.infill_nonzero ∧ c ∉ P.active_zero ∧ c ∉ P.active_nonzero) ∨
        (c ∉ P.infill_zero ∧ c ∈ P.infill_nonzero ∧ c ∉ P.active_zero ∧ c ∉ P.active_nonzero) ∨
        (c ∉ P.infill_zero ∧ c ∉ P.infill_nonzero ∧ c ∈ P.active_zero ∧ c ∉ P.active_nonzero) ∨
        (c ∉ P.infill_zero ∧ c ∉ P.infill_nonzero ∧ c ∉ P.active_zero ∧ c ∈ P.active_nonzero)) ∧
      (∀ c, c ∈ P.infill ↔ c ∈ P.infill_zero ∨ c ∈ P.infill_nonzero) ∧
      (∀ c, c ∈ P.active ↔ c ∈ P.active_zero ∨ c ∈ P.active_nonzero) ∧
      (∀ r ∈ sin, (r.2 = 1 → r.1 ∈ P.infill) ∧ (r.2 = 0 → r.1 ∈ P.active)) ∧
      (∀ c, c ∈ P.infill_zero ↔ c ∈ P.infill ∧ featAt star c = 0) ∧
      (∀ c, c ∈ P.infill_nonzero ↔ c ∈ P.infill ∧ ¬ featAt star c = 0) ∧
      (∀ c, c ∈ P.active_zero ↔ c ∈ P.active ∧ featAt star c = 0) ∧
      (∀ c, c ∈ P.active_nonzero ↔ c ∈ P.active ∧ ¬ featAt star c = 0) := by
  intro P hP
  subst hP
  have hiz := mem_giac_infill_zero sin star
  have hinz := mem_giac_infill_nonzero sin star
  have haz := mem_giac_active_zero sin star
  have hanz := mem_giac_active_nonzero sin star
  have hinf := mem_giac_infill sin star
  have hact := mem_giac_active sin star
  refine ⟨?_, ?_, ?_, ?_, hiz, hinz, haz, hanz⟩
  · intro c hc
    obtain ⟨r, hr, hrc⟩ := List.mem_map.mp hc
    have hinfr : c ∈ (getInfillActiveCoords sin star).infill ↔ r.2 = 1 := by
      rw [hinf c]
      constructor
      · rintro ⟨r', hr', h1, hc'⟩
        have heq := nodup_fst_unique sin hnodup r hr r' hr' (by rw [hrc, hc'])
        rw [heq]; exact h1
      · intro h1; exact ⟨r, hr, h1, hrc⟩
    have hactr : c ∈ (getInfillActiveCoords sin star).active ↔ ¬ r.2 = 1 := by
      rw [hact c]
      constructor
      · rintro ⟨r', hr', h1, hc'⟩
        have heq := nodup_fst_unique sin hnodup r hr r' hr' (by rw [hrc, hc'])
        rw [heq]; exact h1
      · intro h1; exact ⟨r, hr, h1, hrc⟩
    by_cases h1 : r.2 = 1 <;> by_cases h0 : featAt star c = 0
    · exact Or.inl ⟨(hiz c).mpr ⟨hinfr.mpr h1, h0⟩,
        fun hmem => ((hinz c).mp hmem).2 h0,
        fun hmem => (hactr.mp ((haz c).mp hmem).1) h1,
        fun hmem => (hactr.mp ((hanz c).mp hmem).1) h1⟩
    · exact Or.inr (Or.inl ⟨fun hmem => h0 ((hiz c).mp hmem).2,
        (hinz c).mpr ⟨hinfr.mpr h1, h0⟩,
        fun hmem => (hactr.mp ((haz c).mp hmem).1) h1,
        fun hmem => (hactr.mp ((hanz c).mp hmem).1) h1⟩)
    · exact Or.inr (Or.inr (Or.inl ⟨fun hmem => h1 (hinfr.mp ((hiz c).mp hmem).1),
        fun hmem => h1 (hinfr.mp ((hinz c).mp hmem).1),
        (haz c).mpr ⟨hactr.mpr h1, h0⟩,
        fun hmem => ((hanz c).mp hmem).2 h0⟩))
    · exact Or.inr (Or.inr (Or.inr ⟨fun hmem => h1 (hinfr.mp ((hiz c).mp hmem).1),
        fun hmem => h1 (hinfr.mp ((hinz c).mp hmem).1),
        fun hmem => h0 ((haz c).mp hmem).2,
        (hanz c).mpr ⟨hactr.mpr h1, h0⟩⟩))
  · intro c
    rw [hiz c, hinz c]
    by_cases h0 : featAt star c = 0 <;> tauto
  · intro c
    rw [haz c, hanz c]
    by_cases h0 : featAt star c = 0 <;> tauto
  · intro r hr
    constructor
    · intro h1
      exact (mem_giac_infill sin star r.1).mpr ⟨r, hr, h1, rfl⟩
    · intro h0
      refine (mem_giac_active sin star r.1).mpr ⟨r, hr, ?_, rfl⟩
      rw [h0]
      norm_num

/-- Witness for C2 at a concrete five-row input tensor. -/
theorem coordinate_selection_partition_witness :
    (∀ c ∈ pwWitIn.map Prod.fst,
      (c ∈ (getInfillActiveCoords pwWitIn pwWitTar).infill_zero ∧
       c ∉ (getInfillActiveCoords pwWitIn pwWitTar).infill_nonzero ∧
       c ∉ (getInfillActiveCoords pwWitIn pwWitTar).active_zero ∧
       c ∉ (getInfillActiveCoords pwWitIn pwWitTar).active_nonzero) ∨
      (c ∉ (getInfillActiveCoords pwWitIn pwWitTar).infill_zero ∧
       c ∈ (getInfillActiveCoords pwWitIn pwWitTar).infill_nonzero ∧
       c ∉ (getInfillActiveCoords pwWitIn pwWitTar).active_zero ∧
       c ∉ (getInfillActiveCoords pwWitIn pwWitTar).active_nonzero) ∨
      (c ∉ (getInfillActiveCoords pwWitIn pwWitTar).infill_zero ∧
       c ∉ (getInfillActiveCoords pwWitIn pwWitTar).infill_nonzero ∧
       c ∈ (getInfillActiveCoords pwWitIn pwWitTar).active_zero ∧
       c ∉ (getInfillActiveCoords pwWitIn pwWitTar).active_nonzero) ∨
      (c ∉ (getInfillActiveCoords pwWitIn pwWitTar).infill_zero ∧
       c ∉ (getInfillActiveCoords pwWitIn pwWitTar).infill_nonzero ∧
       c ∉ (getInfillActiveCoords pwWitIn pwWitTar).active_zero ∧
       c ∈ (getInfillActiveCoords pwWitIn pwWitTar).active_nonzero)) ∧
    (∀ c, c ∈ (getInfillActiveCoords pwWitIn pwWitTar).infill ↔
      c ∈ (getInfillActiveCoords pwWitIn pwWitTar).infill_zero ∨
      c ∈ (getInfillActiveCoords pwWitIn pwWitTar).infill_nonzero) ∧
    (∀ c, c ∈ (getInfillActiveCoords pwWitIn pwWitTar).active ↔
      c ∈ (getInfillActiveCoords pwWitIn pwWitTar).active_zero ∨
      c ∈ (getInfillActiveCoords pwWitIn pwWitTar).active_nonzero) ∧
    (∀ r ∈ pwWitIn,
      (r.2 = 1 → r.1 ∈ (getInfillActiveCoords pwWitIn pwWitTar).infill) ∧
      (r.2 = 0 → r.1 ∈ (getInfillActiveCoords pwWitIn pwWitTar).active)) ∧
    (∀ c, c ∈ (getInfillActiveCoords pwWitIn pwWitTar).infill_zero ↔
      c ∈ (getInfillActiveCoords pwWitIn pwWitTar).infill ∧ featAt pwWitTar c = 0) ∧
    (∀ c, c ∈ (getInfillActiveCoords pwWitIn pwWitTar).infill_nonzero ↔
      c ∈ (getInfillActiveCoords pwWitIn pwWitTar).infill ∧ ¬ featAt pwWitTar c = 0) ∧
    (∀ c, c ∈ (getInfillActiveCoords pwWitIn pwWitTar).active_zero ↔
      c ∈ (getInfillActiveCoords pwWitIn pwWitTar).active ∧ featAt pwWitTar c = 0) ∧
    (∀ c, c ∈ (getInfillActiveCoords pwWitIn pwWitTar).active_nonzero ↔
      c ∈ (getInfillActiveCoords pwWitIn pwWitTar).active ∧ ¬ featAt pwWitTar c = 0) :=
  coordinate_selection_partition pwWitIn pwWitTar (by decide) (by decide)
    (getInfillActiveCoords pwWitIn pwWitTar) rfl

/-- `sorted(set(nums))`: the distinct markers in ascending order
(the unique duplicate-free ascending list with the same members). -/
def uniqueSorted (nums : List ℤ) : List ℤ :=
  List.insertionSort (· ≤ ·) nums.dedup

theorem uniqueSorted_sorted (nums : List ℤ) : (uniqueSorted nums).Sorted (· ≤ ·) :=
  List.sorted_insertionSort _ _

theorem uniqueSorted_nodup (nums : List ℤ) : (uniqueSorted nums).Nodup :=
  ((List.perm_insertionSort _ _).nodup_iff).mpr nums.nodup_dedup

theorem mem_uniqueSorted (nums : List ℤ) (v : ℤ) : v ∈ uniqueSorted nums ↔ v ∈ nums := by
  unfold uniqueSorted
  rw [(List.perm_insertionSort (· ≤ ·) nums.dedup).mem_iff, List.mem_dedup]

/-- The flattened discontinuity list
`sum([[s, e] for s, e in zip(nums, nums[1:]) if s + 1 < e], [])`:
for each consecutive pair with a gap strictly wider than 1, the two
endpoints in order. -/
def discPairs : List ℤ → List ℤ
  | a :: b :: rest => (if a + 1 < b then [a, b] else []) ++ discPairs (b :: rest)
  | _ => []

/-- `nums[-1:]`: the last element as a (possibly empty) slice. -/
def lastOne : List ℤ → List ℤ
  | [] => []
  | [a] => [a]
  | _ :: rest => lastOne rest

/-- `list(zip(it, it))` over a single iterator: consecutive elements
paired up, an odd trailing element dropped. -/
def pairUp : List ℤ → List (ℤ × ℤ)
  | a :: b :: rest => (a, b) :: pairUp rest
  | _ => []

/-- GapWise._get_edge_ranges (also used by PlaneWise through inheritance
of the same grouping idea): sort the distinct markers, list the
discontinuity endpoints, sandwich them between the first and last marker
and pair the resulting flat list up into inclusive (start, end) ranges. -/
def getEdgeRanges (nums : List ℤ) : List (ℤ × ℤ) :=
  let l := uniqueSorted nums
  pairUp (l.take 1 ++ discPairs l ++ lastOne l)

/-- Tail-recursive construction of maximal contiguous runs: `start` is
the first marker of the open run, `prev` the last marker seen; a marker
more than 1 above `prev` closes the run. -/
def runsAux (start prev : ℤ) : List ℤ → List (ℤ × ℤ)
  | [] => [(start, prev)]
  | x :: xs => if prev + 1 < x then (start, prev) :: runsAux x x xs else runsAux start x xs

/-- Modelled from the spec's words (section 4.2) for the refinement claim
about the range grouper: sort the distinct markers ascending, start a new
run between consecutive markers `a`, `b` exactly when `b > a + 1`, and
return each maximal contiguous run as an inclusive (start, end) pair. -/
def specMaximalRuns (nums : List ℤ) : List (ℤ × ℤ) :=
  match uniqueSorted nums with
  | [] => []
  | x :: xs => runsAux x x xs

theorem pairUp_disc_eq_runsAux :
    ∀ (xs : List ℤ) (s x : ℤ),
    pairUp (s :: (discPairs (x :: xs) ++ lastOne (x :: xs))) = runsAux s x xs := by
  intro xs
  induction xs with
  | nil => intro s x; rfl
  | cons y ys ih =>
    intro s x
    by_cases h : x + 1 < y
    · show pairUp (s :: ((if x + 1 < y then [x, y] else []) ++ discPairs (y :: ys) ++
        lastOne (y :: ys))) = runsAux s x (y :: ys)
      rw [if_pos h]
      show (s, x) :: pairUp (y :: (discPairs (y :: ys) ++ lastOne (y :: ys))) = _
      rw [ih y y]
      simp only [runsAux]
      rw [if_pos h]
    · show pairUp (s :: ((if x + 1 < y then [x, y] else []) ++ discPairs (y :: ys) ++
        lastOne (y :: ys))) = runsAux s x (y :: ys)
      rw [if_neg h]
      show pairUp (s :: (discPairs (y :: ys) ++ lastOne (y :: ys))) = _
      rw [ih s y]
      simp only [runsAux]
      rw [if_neg h]

theorem getEdgeRanges_eq_specMaximalRuns (nums : List ℤ) :
    getEdgeRanges nums = specMaximalRuns nums := by
  unfold getEdgeRanges specMaximalRuns
  cases h : uniqueSorted nums with
  | nil => rfl
  | cons x xs =>
    show pairUp ([x] ++ discPairs (x :: xs) ++ lastOne (x :: xs)) = runsAux x x xs
    rw [List.append_assoc]
    exact pairUp_disc_eq_runsAux xs x x

theorem sorted_head_le {x : ℤ} {xs : List ℤ} (hs : (x :: xs).Sorted (· ≤ ·)) :
    ∀ y ∈ x :: xs, x ≤ y := by
  intro y hy
  rcases List.mem_cons.mp hy with h | h
  · rw [h]
  · exact List.rel_of_sorted_cons hs y h

theorem sorted_le_getLastD :
    ∀ (xs : List ℤ) (x : ℤ), (x :: xs).Sorted (· ≤ ·) → ∀ y ∈ x :: xs, y ≤ xs.getLastD x := by
  intro xs
  induction xs with
  | nil =>
    intro x _ y hy
    rcases List.mem_cons.mp hy with h | h
    · rw [h]; rfl
    · cases h
  | cons z t ih =>
    intro x hs y hy
    rw [List.getLastD_cons]
    rcases List.mem_cons.mp hy with h | h
    · calc y = x := h
        _ ≤ z := List.rel_of_sorted_cons hs z (List.mem_cons_self z t)
        _ ≤ t.getLastD z := ih z hs.of_cons z (List.mem_cons_self z t)
    · exact ih z hs.of_cons y h

theorem runsAux_chain :
    ∀ (xs : List ℤ) (s x : ℤ), List.Chain' (fun a b => b ≤ a + 1) (x :: xs) →
    runsAux s x xs = [(s, xs.getLastD x)] := by
  intro xs
  induction xs with
  | nil => intro s x _; rfl
  | cons y ys ih =>
    intro s x hch
    rw [List.chain'_cons] at hch
    have hne : ¬ x + 1 < y := not_lt.mpr hch.1
    simp only [runsAux]
    rw [if_neg hne, List.getLastD_cons]
    exact ih s y hch.2

/-- C3: the gap range grouper returns exactly the maximal contiguous runs
of the distinct markers, sorted ascending, as inclusive (start, end)
pairs (a new run starts between consecutive sorted markers a, b exactly
when b > a + 1, which is how `specMaximalRuns` is built); a single marker
yields the one pair (marker, marker); a collection that is already one
contiguous run yields exactly one range spanning its minimum to its
maximum; and the markers {2,3,4,7,8,10} yield [(2,4),(7,8),(10,10)]. -/
theorem edge_ranges_maximal_runs :
    (∀ nums : List ℤ, getEdgeRanges nums = specMaximalRuns nums) ∧
    (∀ m : ℤ, getEdgeRanges [m] = [(m, m)]) ∧
    (∀ nums : List ℤ, nums ≠ [] →
      List.Chain' (fun a b => b ≤ a + 1) (uniqueSorted nums) →
      ∃ a b, a ∈ nums ∧ b ∈ nums ∧ (∀ y ∈ nums, a ≤ y ∧ y ≤ b) ∧
        getEdgeRanges nums = [(a, b)]) ∧
    getEdgeRanges [2, 3, 4, 7, 8, 10] = [(2, 4), (7, 8), (10, 10)] := by
  refine ⟨getEdgeRanges_eq_specMaximalRuns, ?_, ?_, by decide⟩
  · intro m
    have hu : uniqueSorted [m] = [m] := rfl
    unfold getEdgeRanges
    rw [hu]
    rfl
  · intro nums hne hch
    obtain ⟨v, hv⟩ := List.exists_mem_of_ne_nil nums hne
    have hvmem : v ∈ uniqueSorted nums := (mem_uniqueSorted nums v).mpr hv
    cases hu : uniqueSorted nums with
    | nil => rw [hu] at hvmem; cases hvmem
    | cons x xs =>
      have hs : (x :: xs).Sorted (· ≤ ·) := hu ▸ uniqueSorted_sorted nums
      refine ⟨x, xs.getLastD x, ?_, ?_, ?_, ?_⟩
      · exact (mem_uniqueSorted nums x).mp (hu ▸ List.mem_cons_self x xs)
      · exact (mem_uniqueSorted nums _).mp (hu ▸ List.getLastD_mem_cons xs x)
      · intro y hy
        have hy' : y ∈ x :: xs := hu ▸ (mem_uniqueSorted nums y).mpr hy
        exact ⟨sorted_head_le hs y hy', sorted_le_getLastD xs x hs y hy'⟩
      · rw [getEdgeRanges_eq_specMaximalRuns]
        unfold specMaximalRuns
        rw [hu]
        exact runsAux_chain xs x x (hu ▸ hch)

/-- Witness for C3 at the contiguous marker collection [5, 6, 4]. -/
theorem edge_ranges_maximal_runs_witness :
    getEdgeRanges [7] = [(7, 7)] ∧
    (∃ a b, a ∈ ([5, 6, 4] : List ℤ) ∧ b ∈ ([5, 6, 4] : List ℤ) ∧
      (∀ y ∈ ([5, 6, 4] : List ℤ), a ≤ y ∧ y ≤ b) ∧
      getEdgeRanges [5, 6, 4] = [(a, b)]) :=
  ⟨edge_ranges_maximal_runs.2.1 7,
   edge_ranges_maximal_runs.2.2.1 [5, 6, 4] (by decide)
     (by
       rw [show uniqueSorted [5, 6, 4] = [4, 5, 6] from by decide]
       refine List.chain'_cons.mpr ⟨by norm_num, List.chain'_cons.mpr ⟨by norm_num, ?_⟩⟩
       exact List.chain'_singleton 6)⟩

/-- The axis-value column `infill_coords[:, coord_idx]`. -/
def axisVals (infill : List Coord) (idx : ℕ) : List ℤ :=
  infill.map (fun c => axisVal c idx)

/-- `active_gap_coords` in GapWise._get_gap_losses: the distinct axis
values appearing among the sample's infill coordinates (torch.unique
returns them sorted ascending), kept exactly when they are members of the
sample's gap marker set (a Python set, modelled as a duplicate-free
list). -/
def activeGapCoords (gaps : List ℤ) (infill : List Coord) (idx : ℕ) : List ℤ :=
  (uniqueSorted (axisVals infill idx)).filter (fun g => decide (g ∈ gaps))

/-- C4: in gap mode, grouping is computed only over markers that are both
in the sample's gap marker set and present among the distinct axis values
of the sample's infill coordinates; with gap markers {1,2,5} and infill
coordinates at axis values {1,2} only, exactly the one range (1,2) is
produced and marker 5 is excluded from grouping. -/
theorem gap_mode_presence_filter :
    (∀ (gaps : List ℤ) (infill : List Coord) (idx : ℕ) (m : ℤ),
      m ∈ activeGapCoords gaps infill idx ↔ m ∈ gaps ∧ m ∈ axisVals infill idx) ∧
    activeGapCoords [1, 2, 5] [⟨0, 1, 0, 0⟩, ⟨0, 2, 0, 0⟩] 1 = [1, 2] ∧
    getEdgeRanges (activeGapCoords [1, 2, 5] [⟨0, 1, 0, 0⟩, ⟨0, 2, 0, 0⟩] 1) = [(1, 2)] ∧
    (5 : ℤ) ∉ activeGapCoords [1, 2, 5] [⟨0, 1, 0, 0⟩, ⟨0, 2, 0, 0⟩] 1 := by
  refine ⟨?_, by decide, by decide, by decide⟩
  intro gaps infill idx m
  unfold activeGapCoords
  rw [List.mem_filter, mem_uniqueSorted]
  simp only [decide_eq_true_eq]
  exact and_comm

/-- The per-range coordinate selection in GapWise._get_gap_losses:
`gap_mask` is the sum of the equality masks over every axis value in
`range(gap_start, gap_end + 1)`, so a coordinate is selected exactly when
its (integer) axis value lies in the inclusive range. -/
def gapFilter (infill : List Coord) (idx : ℕ) (a b : ℤ) : List Coord :=
  infill.filter (fun c => decide (a ≤ axisVal c idx ∧ axisVal c idx ≤ b))

/-- torch.clamp(v, min=0.0, max=thr). -/
def clampVal (thr v : ℚ) : ℚ := min (max v 0) thr

/-- The adc sub-loss of one gap range: the two mean intensities over the
selected coordinates compared by the (mean-reduced, here scalar) adc
criterion.  The division by `gap_coords.shape[0]` produces NaN (modelled
`none`) when no coordinate is selected. -/
def gapAdcTerm (fAdc : ℚ → ℚ → ℚ) (sp st : SparseT ℚ) (gc : List Coord) : Option ℚ :=
  if gc.length = 0 then none
  else some (fAdc ((valuesAt sp gc).sum / (gc.length : ℚ))
                  ((valuesAt st gc).sum / (gc.length : ℚ)))

/-- The npixel sub-loss of one gap range: feature values clamped to
[0, adc_threshold], summed, divided by the threshold and by the number of
selected coordinates (NaN, modelled `none`, when that number is 0). -/
def gapNpixelTerm (fNp : ℚ → ℚ → ℚ) (thr : ℚ) (sp st : SparseT ℚ)
    (gc : List Coord) : Option ℚ :=
  if gc.length = 0 then none
  else some (fNp (((valuesAt sp gc).map (clampVal thr)).sum / thr / (gc.length : ℚ))
                 (((valuesAt st gc).map (clampVal thr)).sum / thr / (gc.length : ℚ)))

/-- GapWise._get_gap_losses: early (0, 0) when both sub-terms are
skipped; explicit (tensor(0.), tensor(0.)) when no active gap markers
exist for the sample; otherwise one adc / npixel sub-loss per contiguous
gap range of the active markers, each list averaged over its ranges
(`sum(...) / len(...)` raises — `none` — on an empty list). -/
def getGapLosses (fAdc fNp : ℚ → ℚ → ℚ) (thr : ℚ) (sp st : SparseT ℚ)
    (gaps : List ℤ) (infill : List Coord) (idx : ℕ)
    (skipAdc skipNp : Bool) : Option (ℚ × ℚ) :=
  if skipAdc && skipNp then some (0, 0)
  else if activeGapCoords gaps infill idx = [] then some (0, 0)
  else
    (if skipAdc then some [] else
      optSequence ((getEdgeRanges (activeGapCoords gaps infill idx)).map
        (fun r => gapAdcTerm fAdc sp st (gapFilter infill idx r.1 r.2)))).bind fun adcTerms =>
    (if skipNp then some [] else
      optSequence ((getEdgeRanges (activeGapCoords gaps infill idx)).map
        (fun r => gapNpixelTerm fNp thr sp st (gapFilter infill idx r.1 r.2)))).bind fun npTerms =>
    (if skipAdc then some 0 else
      if adcTerms.length = 0 then none
      else some (adcTerms.sum / (adcTerms.length : ℚ))).bind fun adcLoss =>
    (if skipNp then some 0 else
      if npTerms.length = 0 then none
      else some (npTerms.sum / (npTerms.length : ℚ))).bind fun npLoss =>
    some (adcLoss, npLoss)

/-- The plane-marker iteration of PlaneWise._get_plane_losses
(`for gap_coord in gaps`): every marker of the set is visited once, with
no filtering by presence in the infill coordinates.  The Python set is
modelled as a duplicate-free list in iteration order. -/
def planeMarkers (gaps : List ℤ) : List ℤ := gaps

/-- The per-plane coordinate selection
`infill_coords[infill_coords[:, coord_idx] == gap_coord]`. -/
def planeSel (infill : List Coord) (idx : ℕ) (g : ℤ) : List Coord :=
  infill.filter (fun c => decide (axisVal c idx = g))

/-- The adc sub-losses of PlaneWise._get_plane_losses, one per marker:
summed (not count-normalized) feature values of the selected plane,
compared by the adc criterion. -/
def planeAdcTerms (fAdc : ℚ → ℚ → ℚ) (sp st : SparseT ℚ) (gaps : List ℤ)
    (infill : List Coord) (idx : ℕ) : List ℚ :=
  (planeMarkers gaps).map (fun g =>
    fAdc ((valuesAt sp (planeSel infill idx g)).sum)
         ((valuesAt st (planeSel infill idx g)).sum))

/-- The npixel sub-losses of PlaneWise._get_plane_losses, one per marker:
clamped feature values summed and divided by the threshold (not by the
plane size). -/
def planeNpixelTerms (fNp : ℚ → ℚ → ℚ) (thr : ℚ) (sp st : SparseT ℚ)
    (gaps : List ℤ) (infill : List Coord) (idx : ℕ) : List ℚ :=
  (planeMarkers gaps).map (fun g =>
    fNp (((valuesAt sp (planeSel infill idx g)).map (clampVal thr)).sum / thr)
        (((valuesAt st (planeSel infill idx g)).map (clampVal thr)).sum / thr))

/-- PlaneWise._get_plane_losses: early (0, 0) when both sub-terms are
skipped; otherwise one adc / npixel sub-loss per marker in the set, each
list averaged over its markers.  There is no empty-marker guard: with an
empty set and a non-skipped sub-term, `sum([]) / len([])` divides by
zero (a raised ZeroDivisionError, modelled `none`). -/
def getPlaneLosses (fAdc fNp : ℚ → ℚ → ℚ) (thr : ℚ) (sp st : SparseT ℚ)
    (gaps : List ℤ) (infill : List Coord) (idx : ℕ)
    (skipAdc skipNp : Bool) : Option (ℚ × ℚ) :=
  if skipAdc && skipNp then some (0, 0)
  else
    let adcTerms := if skipAdc then [] else planeAdcTerms fAdc sp st gaps infill idx
    let npTerms := if skipNp then [] else planeNpixelTerms fNp thr sp st gaps infill idx
    (if skipAdc then some 0 else
      if adcTerms.length = 0 then none
      else some (adcTerms.sum / (adcTerms.length : ℚ))).bind fun adcLoss =>
    (if skipNp then some 0 else
      if npTerms.length = 0 then none
      else some (npTerms.sum / (npTerms.length : ℚ))).bind fun npLoss =>
    some (adcLoss, npLoss)

/-- C5: in plane mode every distinct marker produces exactly one
singleton group (marker, marker) — the per-marker plane selection equals
the selection a singleton inclusive range (marker, marker) makes — and
the number of per-marker sub-losses equals the number of markers,
independent of whether any marker's axis value occurs among the sample's
infill coordinates: markers {5, 9, 12} yield 3 groups even when none of
those axis values appears. -/
theorem plane_mode_singleton_groups :
    (∀ (fAdc : ℚ → ℚ → ℚ) (sp st : SparseT ℚ) (gaps : List ℤ)
        (infill : List Coord) (idx : ℕ),
      (planeAdcTerms fAdc sp st gaps infill idx).length = gaps.length) ∧
    (∀ (fNp : ℚ → ℚ → ℚ) (thr : ℚ) (sp st : SparseT ℚ) (gaps : List ℤ)
        (infill : List Coord) (idx : ℕ),
      (planeNpixelTerms fNp thr sp st gaps infill idx).length = gaps.length) ∧
    (∀ (gaps : List ℤ) (g : ℤ), g ∈ planeMarkers gaps ↔ g ∈ gaps) ∧
    (∀ (infill : List Coord) (idx : ℕ) (g : ℤ),
      planeSel infill idx g = gapFilter infill idx g g) ∧
    (planeAdcTerms l1Pt [] [] [5, 9, 12] [] 1).length = 3 ∧
    (planeAdcTerms l1Pt [] [] [5, 9, 12] [⟨0, 7, 0, 0⟩] 1).length = 3 := by
  refine ⟨?_, ?_, ?_, ?_, by decide, by decide⟩
  · intro fAdc sp st gaps infill idx
    simp [planeAdcTerms, planeMarkers]
  · intro fNp thr sp st gaps infill idx
    simp [planeNpixelTerms, planeMarkers]
  · intro gaps g
    exact Iff.rfl
  · intro infill idx g
    unfold planeSel gapFilter
    apply List.filter_congr
    intro c _
    apply decide_eq_decide.mpr
    constructor
    · intro h
      rw [h]
      exact ⟨le_refl g, le_refl g⟩
    · intro h
      exact le_antisymm h.2 h.1

/-- C7 counterexample: a PlaneWise sample with an empty marker set and a
non-skipped adc sub-term does not substitute a zero contribution — the
average over zero per-plane losses divides by zero (raises). -/
theorem planewise_empty_marker_raises :
    getPlaneLosses l1Pt l1Pt 1 [] [] [] [] 1 false true = none := by decide

/-- C7 (amended): for a sample with no active gap markers, GapWise
substitutes an explicit zero pair for the gap-grouped adc and npixel
sub-terms rather than raising or excluding the sample; PlaneWise has no
such guard — with an empty marker set and a non-skipped sub-term its
per-plane average divides by zero (raises) instead. -/
theorem empty_marker_handling (fAdc fNp : ℚ → ℚ → ℚ) (thr : ℚ)
    (sp st : SparseT ℚ) (gaps : List ℤ) (infill : List Coord) (idx : ℕ)
    (skipAdc skipNp : Bool) :
    (activeGapCoords gaps infill idx = [] →
      getGapLosses fAdc fNp thr sp st gaps infill idx skipAdc skipNp = some (0, 0)) ∧
    (gaps = [] → (skipAdc && skipNp) = false →
      getPlaneLosses fAdc fNp thr sp st gaps infill idx skipAdc skipNp = none) := by
  constructor
  · intro h
    simp [getGapLosses, h]
  · intro hg hsk
    subst hg
    cases skipAdc <;> cases skipNp <;>
      simp_all [getPlaneLosses, planeAdcTerms, planeNpixelTerms, planeMarkers]

/-- Witness for C7 at concrete inputs: gap markers {3} with the only
infill coordinate at axis value 1 (no active marker), and an empty
plane-marker set with both sub-terms enabled. -/
theorem empty_marker_handling_witness :
    getGapLosses l1Pt l1Pt 1 [] [] [3] [⟨0, 1, 0, 0⟩] 1 false false = some (0, 0) ∧
    getPlaneLosses l1Pt l1Pt 1 [] [] [] [⟨0, 1, 0, 0⟩] 1 false false = none :=
  ⟨(empty_marker_handling l1Pt l1Pt 1 [] [] [3] [⟨0, 1, 0, 0⟩] 1 false false).1 (by decide),
   (empty_marker_handling l1Pt l1Pt 1 [] [] [] [⟨0, 1, 0, 0⟩] 1 false false).2 rfl (by decide)⟩

theorem mem_activeGapCoords (gaps : List ℤ) (infill : List Coord) (idx : ℕ) (m : ℤ) :
    m ∈ activeGapCoords gaps infill idx ↔ m ∈ gaps ∧ m ∈ axisVals infill idx := by
  unfold activeGapCoords
  rw [List.mem_filter, mem_uniqueSorted]
  simp only [decide_eq_true_eq]
  exact and_comm

theorem runsAux_ne_nil : ∀ (xs : List ℤ) (s x : ℤ), runsAux s x xs ≠ [] := by
  intro xs
  induction xs with
  | nil => intro s x; simp [runsAux]
  | cons y ys ih =>
    intro s x
    simp only [runsAux]
    by_cases h : x + 1 < y
    · rw [if_pos h]; simp
    · rw [if_neg h]; exact ih s y

theorem runsAux_fst_mem : ∀ (xs : List ℤ) (s x : ℤ) (r : ℤ × ℤ),
    r ∈ runsAux s x xs → r.1 ∈ s :: xs := by
  intro xs
  induction xs with
  | nil =>
    intro s x r hr
    simp only [runsAux, List.mem_singleton] at hr
    rw [hr]
    exact List.mem_cons_self s []
  | cons y ys ih =>
    intro s x r hr
    simp only [runsAux] at hr
    by_cases h : x + 1 < y
    · rw [if_pos h] at hr
      rcases List.mem_cons.mp hr with h1 | h1
      · rw [h1]; exact List.mem_cons_self s (y :: ys)
      · exact List.mem_cons_of_mem s (ih y y r h1)
    · rw [if_neg h] at hr
      rcases List.mem_cons.mp (ih s y r hr) with h1 | h1
      · rw [h1]; exact List.mem_cons_self s (y :: ys)
      · exact List.mem_cons_of_mem s (List.mem_cons_of_mem y h1)

theorem runsAux_le : ∀ (xs : List ℤ) (s x : ℤ), s ≤ x →
    List.Chain' (· ≤ ·) (x :: xs) → ∀ r ∈ runsAux s x xs, r.1 ≤ r.2 := by
  intro xs
  induction xs with
  | nil =>
    intro s x hsx _ r hr
    simp only [runsAux, List.mem_singleton] at hr
    rw [hr]
    exact hsx
  | cons y ys ih =>
    intro s x hsx hch r hr
    rw [List.chain'_cons] at hch
    simp only [runsAux] at hr
    by_cases h : x + 1 < y
    · rw [if_pos h] at hr
      rcases List.mem_cons.mp hr with h1 | h1
      · rw [h1]; exact hsx
      · exact ih y y (le_refl y) hch.2 r h1
    · rw [if_neg h] at hr
      exact ih s y (le_trans hsx hch.1) hch.2 r hr

theorem optSequence_some_of_forall {α β : Type} (g : β → Option α) :
    ∀ (l : List β), (∀ x ∈ l, (g x).isSome = true) →
    ∃ vs, optSequence (l.map g) = some vs ∧ vs.length = l.length := by
  intro l
  induction l with
  | nil => intro _; exact ⟨[], rfl, rfl⟩
  | cons x t ih =>
    intro hall
    obtain ⟨vs, hvs, hlen⟩ := ih (fun y hy => hall y (List.mem_cons_of_mem x hy))
    obtain ⟨v, hv⟩ := Option.isSome_iff_exists.mp (hall x (List.mem_cons_self x t))
    refine ⟨v :: vs, ?_, by simp [hlen]⟩
    simp [optSequence, hv, hvs]

/-- C10: whenever the set of active gap markers of a sample is non-empty,
every produced gap range selects at least one infill coordinate (the
ranges are built only from axis values present among the infill
coordinates), so the divisions by gap_coords.shape[0] in the adc and
npixel terms and the final divisions by the number of per-range losses
never divide by zero: _get_gap_losses evaluates to a defined pair. -/
theorem gapwise_no_division_by_zero (fAdc fNp : ℚ → ℚ → ℚ) (thr : ℚ)
    (sp st : SparseT ℚ) (gaps : List ℤ) (infill : List Coord) (idx : ℕ)
    (skipAdc skipNp : Bool)
    (h : activeGapCoords gaps infill idx ≠ []) :
    (∀ r ∈ getEdgeRanges (activeGapCoords gaps infill idx),
      gapFilter infill idx r.1 r.2 ≠ []) ∧
    (getGapLosses fAdc fNp thr sp st gaps infill idx skipAdc skipNp).isSome = true := by
  have hranges : ∀ r ∈ getEdgeRanges (activeGapCoords gaps infill idx),
      gapFilter infill idx r.1 r.2 ≠ [] := by
    intro r hr
    rw [getEdgeRanges_eq_specMaximalRuns] at hr
    unfold specMaximalRuns at hr
    cases hu : uniqueSorted (activeGapCoords gaps infill idx) with
    | nil =>
      rw [hu] at hr
      exact absurd hr (List.not_mem_nil r)
    | cons x xs =>
      rw [hu] at hr
      have hr' : r ∈ runsAux x x xs := hr
      have hs : (x :: xs).Sorted (· ≤ ·) := by
        rw [← hu]; exact uniqueSorted_sorted _
      have hch : List.Chain' (· ≤ ·) (x :: xs) := List.Pairwise.chain' hs
      have ha : r.1 ∈ x :: xs := runsAux_fst_mem xs x x r hr'
      have hab : r.1 ≤ r.2 := runsAux_le xs x x (le_refl x) hch r hr'
      have hmem : r.1 ∈ activeGapCoords gaps infill idx :=
        (mem_uniqueSorted _ r.1).mp (by rw [hu]; exact ha)
      have hax : r.1 ∈ axisVals infill idx :=
        ((mem_activeGapCoords gaps infill idx r.1).mp hmem).2
      obtain ⟨c, hc, hcv⟩ := List.mem_map.mp hax
      have hcmem : c ∈ gapFilter infill idx r.1 r.2 := by
        unfold gapFilter
        rw [List.mem_filter]
        refine ⟨hc, ?_⟩
        rw [decide_eq_true_eq, hcv]
        exact ⟨le_refl _, hab⟩
      exact List.ne_nil_of_mem hcmem
  refine ⟨hranges, ?_⟩
  have hne_ranges : getEdgeRanges (activeGapCoords gaps infill idx) ≠ [] := by
    rw [getEdgeRanges_eq_specMaximalRuns]
    unfold specMaximalRuns
    cases hu : uniqueSorted (activeGapCoords gaps infill idx) with
    | nil =>
      exfalso
      obtain ⟨v, hv⟩ := List.exists_mem_of_ne_nil _ h
      have hv' := (mem_uniqueSorted _ v).mpr hv
      rw [hu] at hv'
      exact absurd hv' (List.not_mem_nil v)
    | cons x xs => exact runsAux_ne_nil xs x x
  have hadc : ∀ r ∈ getEdgeRanges (activeGapCoords gaps infill idx),
      (gapAdcTerm fAdc sp st (gapFilter infill idx r.1 r.2)).isSome = true := by
    intro r hr
    unfold gapAdcTerm
    rw [if_neg (fun hlen => hranges r hr (List.length_eq_zero.mp hlen))]
    rfl
  have hnp : ∀ r ∈ getEdgeRanges (activeGapCoords gaps infill idx),
      (gapNpixelTerm fNp thr sp st (gapFilter infill idx r.1 r.2)).isSome = true := by
    intro r hr
    unfold gapNpixelTerm
    rw [if_neg (fun hlen => hranges r hr (List.length_eq_zero.mp hlen))]
    rfl
  obtain ⟨adcVs, hadcseq, hadclen⟩ :=
    optSequence_some_of_forall
      (fun r : ℤ × ℤ => gapAdcTerm fAdc sp st (gapFilter infill idx r.1 r.2)) _ hadc
  obtain ⟨npVs, hnpseq, hnplen⟩ :=
    optSequence_some_of_forall
      (fun r : ℤ × ℤ => gapNpixelTerm fNp thr sp st (gapFilter infill idx r.1 r.2)) _ hnp
  have hlenadc : adcVs.length ≠ 0 := by
    rw [hadclen]
    intro h0
    exact hne_ranges (List.length_eq_zero.mp h0)
  have hlennp : npVs.length ≠ 0 := by
    rw [hnplen]
    intro h0
    exact hne_ranges (List.length_eq_zero.mp h0)
  have hadcne : adcVs ≠ [] := fun he => hlenadc (by rw [he]; rfl)
  have hnpne : npVs ≠ [] := fun he => hlennp (by rw [he]; rfl)
  unfold getGapLosses
  cases skipAdc <;> cases skipNp <;>
    simp [h, hadcseq, hnpseq, hlenadc, hlennp, hadcne, hnpne]

/-- Witness for C10: gap markers {1, 2} with infill coordinates at axis
values 1 and 2, both sub-terms enabled. -/
theorem gapwise_no_division_by_zero_witness :
    (∀ r ∈ getEdgeRanges (activeGapCoords [1, 2] [⟨0, 1, 0, 0⟩, ⟨0, 2, 0, 0⟩] 1),
      gapFilter [⟨0, 1, 0, 0⟩, ⟨0, 2, 0, 0⟩] 1 r.1 r.2 ≠ []) ∧
    (getGapLosses l1Pt l1Pt 1 [] [] [1, 2]
      [⟨0, 1, 0, 0⟩, ⟨0, 2, 0, 0⟩] 1 false false).isSome = true :=
  gapwise_no_division_by_zero l1Pt l1Pt 1 [] [] [1, 2]
    [⟨0, 1, 0, 0⟩, ⟨0, 2, 0, 0⟩] 1 false false (by decide)

/-- The criterion families (torch nn criteria) the strategies assign. -/
inductive CritKind
  | L1
  | MSE
  | BCEWithLogits
deriving DecidableEq, Repr

/-- The two criterion attributes PixelWise.__init__ assigns
(self.crit, self.crit_sumreduction). -/
structure PWCrits where
  crit : CritKind
  crit_sumreduction : CritKind
deriving DecidableEq, Repr

/-- The five criterion attributes GapWise.__init__ assigns. -/
structure GWCrits where
  crit_adc : CritKind
  crit_adc_sumreduction : CritKind
  crit_npixel : CritKind
  crit_adc_pixelwise : CritKind
  crit_adc_pixelwise_sumreduction : CritKind
deriving DecidableEq, Repr

/-- The three criterion attributes PlaneWise.__init__ assigns. -/
structure PlWCrits where
  crit_adc : CritKind
  crit_adc_sumreduction : CritKind
  crit_npixel : CritKind
deriving DecidableEq, Repr

/-- The configuration fields the loss constructors read.  Every weight
field is read through getattr with a default of 0.0; adc_threshold can
be None. -/
structure LossConf where
  loss_func : String
  adc_threshold : Option ℚ := none
  loss_infill_zero_weight : ℚ := 0
  loss_infill_nonzero_weight : ℚ := 0
  loss_active_zero_weight : ℚ := 0
  loss_active_nonzero_weight : ℚ := 0
  loss_infill_weight : ℚ := 0
  loss_active_weight : ℚ := 0
  loss_infill_sum_weight : ℚ := 0
  loss_x_gaps_adc_weight : ℚ := 0
  loss_x_gaps_npixel_weight : ℚ := 0
  loss_z_gaps_adc_weight : ℚ := 0
  loss_z_gaps_npixel_weight : ℚ := 0
  loss_x_planes_adc_weight : ℚ := 0
  loss_x_planes_npixel_weight : ℚ := 0
  loss_z_planes_adc_weight : ℚ := 0
  loss_z_planes_npixel_weight : ℚ := 0
deriving DecidableEq, Repr

/-- The criterion dispatch of PixelWise.__init__ (if/elif over
conf.loss_func); an unrecognized name reaches the final else, which
raises NotImplementedError (none here). -/
def pixelWiseCritsFor (lf : String) : Option PWCrits :=
  if lf = "PixelWise_L1Loss" then some ⟨CritKind.L1, CritKind.L1⟩
  else if lf = "PixelWise_MSELoss" then some ⟨CritKind.MSE, CritKind.MSE⟩
  else if lf = "PixelWise_BCEWithLogitsLoss" then
    some ⟨CritKind.BCEWithLogits, CritKind.BCEWithLogits⟩
  else none

/-- The criterion dispatch of GapWise.__init__: an if/elif chain with no
else branch — an unrecognized name assigns no criteria and raises
nothing. -/
def gapWiseCritsFor (lf : String) : Option GWCrits :=
  if lf = "GapWise_L1Loss" then
    some ⟨CritKind.L1, CritKind.L1, CritKind.L1, CritKind.L1, CritKind.L1⟩
  else if lf = "GapWise_MSELoss" then
    some ⟨CritKind.MSE, CritKind.MSE, CritKind.MSE, CritKind.MSE, CritKind.MSE⟩
  else if lf = "GapWise_L1Loss_MSELossPixelWise" then
    some ⟨CritKind.L1, CritKind.L1, CritKind.L1, CritKind.MSE, CritKind.MSE⟩
  else none

/-- The criterion dispatch of PlaneWise.__init__: a single if with no
else branch. -/
def planeWiseCritsFor (lf : String) : Option PlWCrits :=
  if lf = "PlaneWise_L1Loss" then some ⟨CritKind.L1, CritKind.L1, CritKind.L1⟩
  else none

/-- The threshold validation GapWise.__init__ performs.  The Python
condition `A or B and C` groups as `A or (B and C)`: it raises iff
adc_threshold is None, or adc_threshold == 0 while some npixel weight is
non-zero. -/
def gapWiseThresholdRaises (thr : Option ℚ) (wxnp wznp : ℚ) : Bool :=
  thr.isNone || (decide (thr = some 0) && (decide (wxnp ≠ 0) || decide (wznp ≠ 0)))

/-- The threshold validation PlaneWise.__init__ performs: it raises iff
adc_threshold is None while some npixel weight is non-zero. -/
def planeWiseThresholdRaises (thr : Option ℚ) (wxnp wznp : ℚ) : Bool :=
  thr.isNone && (decide (wxnp ≠ 0) || decide (wznp ≠ 0))

/-- The attributes a constructed PixelWise strategy carries. -/
structure PixelWiseState where
  crits : PWCrits
  lambda_loss_infill_zero : ℚ
  lambda_loss_infill_nonzero : ℚ
  lambda_loss_active_zero : ℚ
  lambda_loss_active_nonzero : ℚ
  lambda_loss_infill : ℚ
  lambda_loss_active : ℚ
  lambda_loss_infill_sum : ℚ
deriving DecidableEq, Repr

/-- The attributes a constructed GapWise strategy carries; `crits = none`
models the criterion attributes having never been assigned. -/
structure GapWiseState where
  crits : Option GWCrits
  adc_threshold : Option ℚ
  lambda_loss_infill_zero : ℚ
  lambda_loss_infill_nonzero : ℚ
  lambda_loss_infill : ℚ
  lambda_loss_x_gaps_adc : ℚ
  lambda_loss_x_gaps_npixel : ℚ
  lambda_loss_z_gaps_adc : ℚ
  lambda_loss_z_gaps_npixel : ℚ
deriving DecidableEq, Repr

/-- The attributes a constructed PlaneWise strategy carries. -/
structure PlaneWiseState where
  crits : Option PlWCrits
  adc_threshold : Option ℚ
  lambda_loss_infill_zero : ℚ
  lambda_loss_infill_nonzero : ℚ
  lambda_loss_infill : ℚ
  lambda_loss_x_planes_adc : ℚ
  lambda_loss_x_planes_npixel : ℚ
  lambda_loss_z_planes_adc : ℚ
  lambda_loss_z_planes_npixel : ℚ
deriving DecidableEq, Repr

/-- PixelWise.__init__ (no overrides): raises NotImplementedError for an
unrecognized criterion name, otherwise resolves criteria and weights. -/
def pixelWiseInit (conf : LossConf) : Except String PixelWiseState :=
  match pixelWiseCritsFor conf.loss_func with
  | some cr =>
    Except.ok
      { crits := cr
        lambda_loss_infill_zero := conf.loss_infill_zero_weight
        lambda_loss_infill_nonzero := conf.loss_infill_nonzero_weight
        lambda_loss_active_zero := conf.loss_active_zero_weight
        lambda_loss_active_nonzero := conf.loss_active_nonzero_weight
        lambda_loss_infill := conf.loss_infill_weight
        lambda_loss_active := conf.loss_active_weight
        lambda_loss_infill_sum := conf.loss_infill_sum_weight }
  | none => Except.error ("loss_func=" ++ conf.loss_func ++ " not valid")

/-- GapWise.__init__ (no overrides): assign whatever criteria the
if/elif chain recognizes (possibly none, without raising), resolve the
weights, and perform the threshold validation. -/
def gapWiseInit (conf : LossConf) : Except String GapWiseState :=
  if gapWiseThresholdRaises conf.adc_threshold
      conf.loss_x_gaps_npixel_weight conf.loss_z_gaps_npixel_weight then
    Except.error ("Need to have an adc threshold set and >0 for the final pruning layer" ++
      "in order to use npixel losses")
  else
    Except.ok
      { crits := gapWiseCritsFor conf.loss_func
        adc_threshold := conf.adc_threshold
        lambda_loss_infill_zero := conf.loss_infill_zero_weight
        lambda_loss_infill_nonzero := conf.loss_infill_nonzero_weight
        lambda_loss_infill := conf.loss_infill_weight
        lambda_loss_x_gaps_adc := conf.loss_x_gaps_adc_weight
        lambda_loss_x_gaps_npixel := conf.loss_x_gaps_npixel_weight
        lambda_loss_z_gaps_adc := conf.loss_z_gaps_adc_weight
        lambda_loss_z_gaps_npixel := conf.loss_z_gaps_npixel_weight }

/-- PlaneWise.__init__ (no overrides). -/
def planeWiseInit (conf : LossConf) : Except String PlaneWiseState :=
  if planeWiseThresholdRaises conf.adc_threshold
      conf.loss_x_planes_npixel_weight conf.loss_z_planes_npixel_weight then
    Except.error ("Need to have an adc threshold for the final pruning layer" ++
      "in order to use npixel losses")
  else
    Except.ok
      { crits := planeWiseCritsFor conf.loss_func
        adc_threshold := conf.adc_threshold
        lambda_loss_infill_zero := conf.loss_infill_zero_weight
        lambda_loss_infill_nonzero := conf.loss_infill_nonzero_weight
        lambda_loss_infill := conf.loss_infill_weight
        lambda_loss_x_planes_adc := conf.loss_x_planes_adc_weight
        lambda_loss_x_planes_npixel := conf.loss_x_planes_npixel_weight
        lambda_loss_z_planes_adc := conf.loss_z_planes_adc_weight
        lambda_loss_z_planes_npixel := conf.loss_z_planes_npixel_weight }

/-- A constructed loss strategy. -/
inductive Strategy
  | pixel (s : PixelWiseState)
  | gap (s : GapWiseState)
  | plane (s : PlaneWiseState)
deriving DecidableEq, Repr

/-- init_loss_func: dispatch on the loss_func configuration string.  The
Chamfer branch constructs the strategy and then unconditionally raises
NotImplementedError; an unmatched name raises ValueError naming the
offending value. -/
def init_loss_func (conf : LossConf) : Except String Strategy :=
  if conf.loss_func = "PixelWise_L1Loss" ∨ conf.loss_func = "PixelWise_MSELoss" ∨
      conf.loss_func = "PixelWise_BCEWithLogitsLoss" then
    (pixelWiseInit conf).map Strategy.pixel
  else if conf.loss_func = "GapWise_L1Loss" ∨ conf.loss_func = "GapWise_MSELoss" ∨
      conf.loss_func = "GapWise_L1Loss_MSELossPixelWise" then
    (gapWiseInit conf).map Strategy.gap
  else if conf.loss_func = "PlaneWise_L1Loss" then
    (planeWiseInit conf).map Strategy.plane
  else if conf.loss_func = "Chamfer" then
    Except.error ("Dont think Chamfer loss is possible, would need to use point clouds")
  else
    Except.error ("loss_func=" ++ conf.loss_func ++ " not valid")

/-- Whether a construction attempt succeeded (raised no exception). -/
def isOkE {ε α : Type} : Except ε α → Bool
  | Except.ok _ => true
  | Except.error _ => false

/-- C8: the code's threshold validation contradicts the claim (and the
code's own error message, which demands a threshold "set and >0 in order
to use npixel losses").  Because the Python condition `A or B and C`
groups as `A or (B and C)`: a GapWise strategy with the negative
threshold -1 and npixel weight 1 constructs without error; a GapWise
strategy with threshold None and all npixel weights 0 raises; a
PlaneWise strategy with threshold 0 and npixel weight 1 constructs
without error. -/
def gwConfNegThr : LossConf :=
  { loss_func := "GapWise_L1Loss"
    adc_threshold := some (-1)
    loss_x_gaps_npixel_weight := 1 }

def gwConfNoThr : LossConf :=
  { loss_func := "GapWise_L1Loss"
    adc_threshold := none }

def plwConfZeroThr : LossConf :=
  { loss_func := "PlaneWise_L1Loss"
    adc_threshold := some 0
    loss_x_planes_npixel_weight := 1 }

theorem threshold_validation_divergence :
    isOkE (gapWiseInit gwConfNegThr) = true ∧
    isOkE (gapWiseInit gwConfNoThr) = false ∧
    isOkE (planeWiseInit plwConfZeroThr) = true := by
  refine ⟨?_, ?_, ?_⟩ <;> rfl

/-- C9 counterexample: constructing a GapWise strategy with the
unrecognized criterion name "GapWise_BCELoss" (and a set threshold)
raises no configuration error — it succeeds with no criteria assigned. -/
def gwConfBCE : LossConf :=
  { loss_func := "GapWise_BCELoss"
    adc_threshold := some 1 }

def plwConfMSE : LossConf :=
  { loss_func := "PlaneWise_MSELoss"
    adc_threshold := some 1 }

def fooConf : LossConf :=
  { loss_func := "FooLoss" }

theorem gapwise_unrecognized_name_no_error :
    gapWiseInit gwConfBCE =
      Except.ok
        { crits := none
          adc_threshold := some 1
          lambda_loss_infill_zero := 0
          lambda_loss_infill_nonzero := 0
          lambda_loss_infill := 0
          lambda_loss_x_gaps_adc := 0
          lambda_loss_x_gaps_npixel := 0
          lambda_loss_z_gaps_adc := 0
          lambda_loss_z_gaps_npixel := 0 } := by
  rfl

/-- C9 (amended): the factory raises an error naming the offending value
for any unmatched loss_func string, and PixelWise raises eagerly at
construction for an unrecognized criterion name; GapWise and PlaneWise,
however, do not validate the criterion name — with an unrecognized name
(and a passing threshold check) construction succeeds and simply leaves
the criteria unassigned. -/
theorem unrecognized_loss_func_errors (conf : LossConf) :
    (conf.loss_func ∉ ["PixelWise_L1Loss", "PixelWise_MSELoss",
        "PixelWise_BCEWithLogitsLoss", "GapWise_L1Loss", "GapWise_MSELoss",
        "GapWise_L1Loss_MSELossPixelWise", "PlaneWise_L1Loss", "Chamfer"] →
      init_loss_func conf = Except.error ("loss_func=" ++ conf.loss_func ++ " not valid")) ∧
    (pixelWiseCritsFor conf.loss_func = none →
      pixelWiseInit conf = Except.error ("loss_func=" ++ conf.loss_func ++ " not valid")) ∧
    (gapWiseCritsFor conf.loss_func = none →
      gapWiseThresholdRaises conf.adc_threshold conf.loss_x_gaps_npixel_weight
        conf.loss_z_gaps_npixel_weight = false →
      ∃ st, gapWiseInit conf = Except.ok st ∧ st.crits = none) ∧
    (planeWiseCritsFor conf.loss_func = none →
      planeWiseThresholdRaises conf.adc_threshold conf.loss_x_planes_npixel_weight
        conf.loss_z_planes_npixel_weight = false →
      ∃ st, planeWiseInit conf = Except.ok st ∧ st.crits = none) := by
  refine ⟨?_, ?_, ?_, ?_⟩
  · intro hmem
    simp only [List.mem_cons, List.not_mem_nil, or_false, not_or] at hmem
    obtain ⟨h1, h2, h3, h4, h5, h6, h7, h8⟩ := hmem
    unfold init_loss_func
    rw [if_neg (by tauto), if_neg (by tauto), if_neg h7, if_neg h8]
  · intro hnone
    unfold pixelWiseInit
    rw [hnone]
  · intro hnone hthr
    unfold gapWiseInit
    rw [if_neg (by rw [hthr]; exact Bool.false_ne_true)]
    exact ⟨_, rfl, hnone⟩
  · intro hnone hthr
    unfold planeWiseInit
    rw [if_neg (by rw [hthr]; exact Bool.false_ne_true)]
    exact ⟨_, rfl, hnone⟩

/-- Witness for C9: factory dispatch on the unmatched name "FooLoss",
PixelWise construction on the same name, and GapWise / PlaneWise
construction on unrecognized criterion names with a set threshold. -/
theorem unrecognized_loss_func_errors_witness :
    init_loss_func fooConf =
      Except.error ("loss_func=" ++ "FooLoss" ++ " not valid") ∧
    pixelWiseInit fooConf =
      Except.error ("loss_func=" ++ "FooLoss" ++ " not valid") ∧
    (∃ st, gapWiseInit gwConfBCE = Except.ok st ∧ st.crits = none) ∧
    (∃ st, planeWiseInit plwConfMSE = Except.ok st ∧ st.crits = none) :=
  ⟨(unrecognized_loss_func_errors fooConf).1 (by decide),
   (unrecognized_loss_func_errors fooConf).2.1 (by rfl),
   (unrecognized_loss_func_errors gwConfBCE).2.2.1 (by rfl) (by rfl),
   (unrecognized_loss_func_errors plwConfMSE).2.2.2 (by rfl) (by rfl)⟩

/-- C6 (amended): a call of the elementwise or the aggregate subset loss
with an empty coordinate subset never raises and never divides by zero:
the elementwise loss applies the sum-reduced criterion to two zero-length
value sequences and returns the finite scalar 0 for every criterion; the
aggregate loss applies the sum-reduced criterion to the two (zero) sums
of the empty value sequences, returning the criterion's value at (0, 0)
— which is 0 whenever the criterion vanishes there, as L1 and MSE do. -/
theorem empty_subset_loss_defined {α : Type} [DivisionRing α] (f : α → α → α)
    (sp st : SparseT α) :
    getLossAtCoords f sp st [] = some 0 ∧
    getSummedLossAtCoords f sp st [] = some (f 0 0) ∧
    (f 0 0 = 0 → getSummedLossAtCoords f sp st [] = some 0) := by
  have h1 : getLossAtCoords f sp st [] = some 0 := by
    simp [getLossAtCoords, valuesAt, sumCrit]
  have h2 : getSummedLossAtCoords f sp st [] = some (f 0 0) := by
    simp [getSummedLossAtCoords, valuesAt, sumCrit]
  exact ⟨h1, h2, fun h0 => by rw [h2, h0]⟩

/-- Witness for C6 at the L1 criterion over ℚ (the criterion vanishes at
(0, 0), so both losses are the finite scalar 0 on the empty subset). -/
theorem empty_subset_loss_defined_witness :
    l1Pt 0 0 = 0 ∧
    getLossAtCoords l1Pt ([] : SparseT ℚ) [] [] = some 0 ∧
    getSummedLossAtCoords l1Pt ([] : SparseT ℚ) [] [] = some 0 :=
  ⟨by norm_num [l1Pt], (empty_subset_loss_defined l1Pt [] []).1,
   (empty_subset_loss_defined l1Pt [] []).2.2 (by norm_num [l1Pt])⟩

/-- Pointwise per-element loss of nn.BCEWithLogitsLoss:
-(y * log σ(x) + (1 - y) * log (1 - σ(x))) with σ the logistic sigmoid
(real-valued: the logarithm is not rational-valued). -/
noncomputable def bceWithLogitsPt (x y : ℝ) : ℝ :=
  -(y * Real.log (1 / (1 + Real.exp (-x))) +
    (1 - y) * Real.log (1 - 1 / (1 + Real.exp (-x))))

theorem bceWithLogitsPt_zero : bceWithLogitsPt 0 0 = Real.log 2 := by
  unfold bceWithLogitsPt
  rw [neg_zero, Real.exp_zero]
  norm_num
  rw [one_div, Real.log_inv, neg_neg]

/-- C6 counterexample: under the BCEWithLogits criterion (a valid
PixelWise configuration), the aggregate subset loss at an empty
coordinate subset is the sum-reduced criterion applied to the two zero
sums, i.e. log 2 — finite, but not the scalar 0 the claim states. -/
theorem aggregate_empty_loss_nonzero_bce :
    getSummedLossAtCoords bceWithLogitsPt ([] : SparseT ℝ) [] [] ≠ some 0 := by
  have hval : getSummedLossAtCoords bceWithLogitsPt ([] : SparseT ℝ) [] [] =
      some (bceWithLogitsPt 0 0) := by
    simp [getSummedLossAtCoords, valuesAt, sumCrit]
  rw [hval, bceWithLogitsPt_zero]
  intro hcontra
  have hzero : Real.log 2 = 0 := Option.some_inj.mp hcontra
  exact absurd hzero (ne_of_gt (Real.log_pos one_lt_two))
